import Mathlib

/-!
Verification of the repeating poller `pollEvery` (src/unnamed/part_000) of
the use-polkadot-wallet repository.

The TypeScript source:

  export function pollEvery<R, T>(fn, delay) {
    let timer: any
    let stop = false
    const poll = async (request, onResult) => {
      const result = await request()
      if (!stop) {
        onResult(result)
        timer = setTimeout(poll.bind(null, request, onResult), delay)
      }
    }
    return (...params: T[]) => {
      const { request, onResult } = fn(...params)
      stop = false
      poll(request, onResult)
      return () => {
        stop = true
        clearTimeout(timer)
      }
    }
  }

We embed one poller instance as an explicit event-loop state machine.
The mutable closure variables `stop` and `timer` become fields of a world
state.  The single-threaded cooperative scheduler is modelled by four kinds
of externally scheduled events:

  * `start`        — the caller invokes the returned start closure.  In the
                     source this synchronously runs `stop = false` and then
                     `poll(request, onResult)` up to the first `await`,
                     which issues the session's request number 0.
  * `stopCall`     — the caller invokes a stop closure.  Every stop closure
                     returned by this poller instance closes over the same
                     `stop` and `timer` variables, so all of them have the
                     identical effect `stop = true; clearTimeout(timer)`:
                     one event shape is faithful for all of them.
  * `resolve s i`  — the promise of session `s`'s request number `i`, which
                     must be in flight, settles.  The continuation after
                     `await request()` then runs atomically: on fulfilment,
                     if `!stop` it calls `onResult` and schedules a fresh
                     timer; on rejection nothing after the `await` runs and
                     the async `poll` call rejects unhandled.
  * `fire id`      — the pending `setTimeout` callback with handle `id`
                     fires, running `poll` up to its `await`, which issues
                     the session's next request.

Sessions are numbered in start order.  The factory output for session `s`
is modelled by `producers s` (the value or rejection of its request number
`i`) and `consumerThrows s` (whether its `onResult` throws on a value).
The world records every `onResult` invocation, in order, in `log`.
`clearTimeout` removes the pending timer whose handle equals the stored
`timer` variable; a stale or absent handle makes it a no-op, exactly as in
the source platform.
-/

namespace PollEvery

/-- The caller-supplied data of one poller instance: the construction-time
`delay`, and per session (per start call) the factory's `request` producer
behaviour and whether its `onResult` consumer throws on a given value. -/
structure Config (R : Type) where
  delay : Nat
  producers : Nat → Nat → Except Unit R
  consumerThrows : Nat → R → Bool

/-- The state of one poller instance together with its platform event loop.
`stop` and `timer` are the two mutable variables captured by closure in the
source (`timer` is the raw stored handle; `clearTimeout` does not reset
it).  `inflight` holds the suspended `poll` continuations awaiting a
request, as pairs (session, request number); `timers` holds the pending
`setTimeout` callbacks as triples (handle, session, next request number);
`log` records each `onResult` invocation (session, value) in order. -/
structure World (R : Type) where
  stop : Bool
  timer : Option Nat
  nextTimerId : Nat
  nextSession : Nat
  inflight : List (Nat × Nat)
  timers : List (Nat × Nat × Nat)
  log : List (Nat × R)
deriving Repr, DecidableEq

/-- One externally scheduled occurrence on the cooperative queue. -/
inductive Ev where
  | start
  | stopCall
  | resolve (s i : Nat)
  | fire (id : Nat)
deriving Repr, DecidableEq

/-- The poller instance before any start call: `let timer` (unset),
`let stop = false`, nothing scheduled and nothing delivered. -/
def init {R : Type} : World R :=
  { stop := false, timer := none, nextTimerId := 0, nextSession := 0,
    inflight := [], timers := [], log := [] }

/-- Small-step interpreter: run one event against the world, `none` when
the event is not actually enabled (no such request in flight, no such
pending timer). -/
def step {R : Type} (cfg : Config R) (w : World R) : Ev → Option (World R)
  | .start =>
      -- `stop = false; poll(request, onResult)`: the new session's request
      -- number 0 is issued synchronously, up to the first await.
      some { w with stop := false,
                    nextSession := w.nextSession + 1,
                    inflight := w.inflight ++ [(w.nextSession, 0)] }
  | .stopCall =>
      -- `stop = true; clearTimeout(timer)`: only the pending timer whose
      -- handle is currently stored in `timer` is cancelled.
      some { w with stop := true,
                    timers := w.timers.filter (fun t => decide (some t.1 ≠ w.timer)) }
  | .resolve s i =>
      if (s, i) ∈ w.inflight then
        let w1 := { w with inflight := w.inflight.erase (s, i) }
        match cfg.producers s i with
        | .error _ => some w1
        | .ok r =>
            if w.stop then some w1
            else
              let w2 := { w1 with log := w1.log ++ [(s, r)] }
              if cfg.consumerThrows s r then some w2
              else some { w2 with
                timers := w2.timers ++ [(w.nextTimerId, s, i + 1)],
                timer := some w.nextTimerId,
                nextTimerId := w.nextTimerId + 1 }
      else none
  | .fire id =>
      match w.timers.find? (fun t => decide (t.1 = id)) with
      | some (_, s, i) =>
          some { w with timers := w.timers.filter (fun t => decide (t.1 ≠ id)),
                        inflight := w.inflight ++ [(s, i)] }
      | none => none

/-- Run a schedule of events from a given world. -/
def runFrom {R : Type} (cfg : Config R) : World R → List Ev → Option (World R)
  | w, [] => some w
  | w, e :: es =>
      match step cfg w e with
      | some w1 => runFrom cfg w1 es
      | none => none

/-- Run a schedule of events from the freshly constructed poller. -/
def run {R : Type} (cfg : Config R) (evs : List Ev) : Option (World R) :=
  runFrom cfg init evs

/-- A configuration whose requests always fulfil, session `s`'s request
number `i` yielding `r s i`, and whose consumers never throw. -/
def okConfig {R : Type} (d : Nat) (r : Nat → Nat → R) : Config R :=
  { delay := d, producers := fun s i => .ok (r s i),
    consumerThrows := fun _ _ => false }

/-- A concrete all-fulfilling configuration over `Nat` results, session
`s`'s request number `i` yielding `10 * s + i + 1`, used to evaluate the
model at explicit inputs. -/
def demoConfig : Config Nat := okConfig 5 (fun s i => 10 * s + i + 1)

/-- The canonical uninterrupted schedule of `k` full loop iterations of
session `s` on a fresh poller: its request number `i` resolves, then the
timer (which, on a fresh poller, gets handle `i`) fires and issues request
number `i + 1`. -/
def phasesFor (s : Nat) (k : Nat) : List Ev :=
  (List.range k).flatMap (fun i => [Ev.resolve s i, Ev.fire i])

/-- The world just after a start call issued session `s`'s request number 0
on a poller whose timer handle counter is still 0 and whose log is empty;
`m` is the number of start calls made so far. -/
def loopStart (R : Type) (s m : Nat) : World R :=
  { stop := false, timer := none, nextTimerId := 0, nextSession := m,
    inflight := [(s, 0)], timers := [], log := [] }

/-- The world after `k` full canonical loop iterations of session `s` from
`loopStart`: results `r 0 … r (k-1)` delivered in order and request number
`k` in flight. -/
def loopMid {R : Type} (r : Nat → R) (s m k : Nat) : World R :=
  { stop := false, timer := if k = 0 then none else some (k - 1),
    nextTimerId := k, nextSession := m, inflight := [(s, k)], timers := [],
    log := (List.range k).map (fun i => (s, r i)) }

/-- The world in the middle of iteration `k`: result `r k` just delivered,
the timer for request number `k + 1` scheduled but not yet fired. -/
def loopHalf {R : Type} (r : Nat → R) (s m k : Nat) : World R :=
  { stop := false, timer := some k, nextTimerId := k + 1,
    nextSession := m, inflight := [], timers := [(k, s, k + 1)],
    log := (List.range (k + 1)).map (fun i => (s, r i)) }

def sCount (s : Nat) (l : List (Nat × Nat)) : Nat :=
  l.countP (fun p => decide (p.1 = s))

def tCount (s : Nat) (l : List (Nat × Nat × Nat)) : Nat :=
  l.countP (fun t => decide (t.2.1 = s))

def load {R : Type} (w : World R) (s : Nat) : Nat :=
  sCount s w.inflight + tCount s w.timers

def Inv {R : Type} (w : World R) : Prop :=
  (∀ s, load w s ≤ 1) ∧
  (∀ s, w.nextSession ≤ s → load w s = 0) ∧
  (w.timers.map (fun t => t.1)).Nodup ∧
  (∀ t ∈ w.timers, t.1 < w.nextTimerId)

def logCount {R : Type} (s : Nat) (l : List (Nat × R)) : Nat :=
  l.countP (fun p => decide (p.1 = s))

def failConfig : Config Nat :=
  { delay := 5, producers := fun _ i => if i = 0 then .ok 1 else .error (),
    consumerThrows := fun _ _ => false }

def throwConfig : Config Nat :=
  { delay := 5, producers := fun _ i => .ok (i + 1),
    consumerThrows := fun _ r => decide (r = 2) }

def TimerShape {R : Type} (w : World R) : Prop :=
  w.timers = [] ∨ ∃ t, w.timers = [t] ∧ w.timer = some t.1

theorem runFrom_append {R : Type} (cfg : Config R) (l₁ l₂ : List Ev) :
    ∀ w, runFrom cfg w (l₁ ++ l₂) =
      (runFrom cfg w l₁).bind (fun w1 => runFrom cfg w1 l₂) := by
  induction l₁ with
  | nil => intro w; simp [runFrom]
  | cons e es ih =>
      intro w
      simp only [List.cons_append, runFrom]
      cases step cfg w e with
      | none => simp
      | some w1 => simpa using ih w1

theorem phasesFor_succ (s k : Nat) :
    phasesFor s (k + 1) = phasesFor s k ++ [Ev.resolve s k, Ev.fire k] := by
  simp [phasesFor, List.range_succ]

/-- Running `k` canonical loop iterations of session `s` from `loopStart`
reaches exactly `loopMid`: every result delivered in order, one request in
flight, no pending timer. -/
theorem loop_run {R : Type} (cfg : Config R) (r : Nat → R) (s m : Nat)
    (hprod : ∀ i, cfg.producers s i = Except.ok (r i))
    (hcons : ∀ i, cfg.consumerThrows s (r i) = false) :
    ∀ k, runFrom cfg (loopStart R s m) (phasesFor s k) = some (loopMid r s m k) := by
  intro k
  induction k with
  | zero => rfl
  | succ k ih =>
      rw [phasesFor_succ, runFrom_append, ih]
      have h1 : step cfg (loopMid r s m k) (Ev.resolve s k) = some (loopHalf r s m k) := by
        simp [step, loopMid, loopHalf, hprod k, hcons k, List.range_succ]
      have h2 : step cfg (loopHalf r s m k) (Ev.fire k) = some (loopMid r s m (k + 1)) := by
        simp [step, loopMid, loopHalf, List.find?]
      simp [runFrom, h1, h2]

/-- C1: for every delay `d ≥ 0` and every finite sequence of results
`r 0 … r (n-1)` yielded by the session's Request Producer, starting a
session and letting it run `n` iterations before stopping delivers exactly
those results to the Result Consumer, in that order (the request left in
flight at the stop call runs to completion and is discarded); and at the
moment the `i`-th result is delivered no request is in flight, so each
`onResult` invocation occurs strictly before the next request is issued
(the next request is issued only by the subsequent timer firing). -/
theorem c1_ordered_delivery (R : Type) (d : Nat) (r : Nat → R) (n : Nat) :
    ((run (okConfig d (fun _ j => r j))
        (Ev.start :: (phasesFor 0 n ++ [Ev.stopCall, Ev.resolve 0 n]))).map World.log
      = some ((List.range n).map fun i => (0, r i)))
    ∧ (∀ i, i < n →
        (run (okConfig d (fun _ j => r j))
            (Ev.start :: (phasesFor 0 i ++ [Ev.resolve 0 i]))).map
            (fun w => (w.log, w.inflight))
          = some ((List.range (i + 1)).map (fun j => (0, r j)), [])) := by
  have hrun : ∀ k, runFrom (okConfig d (fun _ j => r j)) (loopStart R 0 1) (phasesFor 0 k)
      = some (loopMid r 0 1 k) := loop_run _ r 0 1 (fun _ => rfl) (fun _ => rfl)
  have hstart : step (okConfig d (fun _ j => r j)) init Ev.start = some (loopStart R 0 1) := rfl
  constructor
  · simp only [run, runFrom, hstart]
    rw [runFrom_append, hrun n]
    simp [runFrom, step, loopMid, okConfig, List.range_succ]
  · intro i _
    simp only [run, runFrom, hstart]
    rw [runFrom_append, hrun i]
    simp [runFrom, step, loopMid, okConfig, List.range_succ]

/-- Witness for C1 at `d = 100`, `r j = j + 1`, `n = 3` (the spec's
concrete scenario: output log `[1, 2, 3]`), and at `i = 1 < 3` for the
ordering conjunct. -/
theorem c1_ordered_delivery_witness :
    ((run (okConfig 100 (fun _ j => j + 1))
        (Ev.start :: (phasesFor 0 3 ++ [Ev.stopCall, Ev.resolve 0 3]))).map World.log
      = some [(0, 1), (0, 2), (0, 3)])
    ∧ ((run (okConfig 100 (fun _ j => j + 1))
        (Ev.start :: (phasesFor 0 1 ++ [Ev.resolve 0 1]))).map
          (fun w => (w.log, w.inflight))
      = some ([(0, 1), (0, 2)], [])) := by
  refine ⟨?_, ?_⟩
  · have h := (c1_ordered_delivery Nat 100 (fun j => j + 1) 3).1
    simpa using h
  · have h := (c1_ordered_delivery Nat 100 (fun j => j + 1) 3).2 1 (by decide)
    simpa using h

/-- C2 counterexample: the claim "once a session's stop function has been
invoked, no further Result Consumer invocation occurs for that session and
an in-flight result is silently discarded" fails as stated.  Concretely,
with `demoConfig`, run `start; stop; start; resolve session 0's in-flight
request`: session 0's stop has been invoked, yet session 0's consumer is
still invoked with its result (the second start call reset the shared
stopped flag). -/
theorem c2_stopped_delivery_counterexample :
    (run demoConfig [Ev.start, Ev.stopCall, Ev.start, Ev.resolve 0 0]).map World.log
      = some [(0, 1)] := rfl

/-- C4: the stopped flag is one shared variable captured at
poller-construction time.  With two sessions started before any stop, the
single stop call silently suppresses session 1's delivery (log stays
empty); and a third start call flips the same shared flag back, so the
previously stopped session 0 delivers after all. -/
theorem c4_shared_stop_flag :
    ((run demoConfig [Ev.start, Ev.start, Ev.stopCall, Ev.resolve 1 0]).map World.log
      = some [])
    ∧ ((run demoConfig [Ev.start, Ev.start, Ev.stopCall, Ev.start, Ev.resolve 0 0]).map
        World.log
      = some [(0, 1)]) :=
  ⟨rfl, rfl⟩

/-- C6: the poller is restartable.  After `start; stop;` (with the old
session's in-flight request resolving and being discarded) a second start
begins a fresh independent session: the stopped flag is false again and `n`
canonical iterations deliver exactly session 1's results from request
number 0 on (a fresh count, not a resumption of the old one).  Moreover
every start call clears the stopped flag. -/
theorem c6_restartable (R : Type) (d : Nat) (r : Nat → Nat → R) (n : Nat) :
    ((run (okConfig d r)
        ([Ev.start, Ev.stopCall, Ev.resolve 0 0, Ev.start] ++ phasesFor 1 n)).map
        (fun w => (w.stop, w.log))
      = some (false, (List.range n).map fun i => (1, r 1 i)))
    ∧ (∀ (cfg : Config R) (w : World R), (step cfg w Ev.start).map World.stop = some false) := by
  have hpre : runFrom (okConfig d r) init [Ev.start, Ev.stopCall, Ev.resolve 0 0, Ev.start]
      = some (loopStart R 1 2) := rfl
  have hrun : ∀ k, runFrom (okConfig d r) (loopStart R 1 2) (phasesFor 1 k)
      = some (loopMid (fun i => r 1 i) 1 2 k) :=
    loop_run _ (fun i => r 1 i) 1 2 (fun _ => rfl) (fun _ => rfl)
  constructor
  · rw [show run (okConfig d r)
          ([Ev.start, Ev.stopCall, Ev.resolve 0 0, Ev.start] ++ phasesFor 1 n)
        = runFrom (okConfig d r) init
            ([Ev.start, Ev.stopCall, Ev.resolve 0 0, Ev.start] ++ phasesFor 1 n) from rfl,
      runFrom_append, hpre]
    simp only [Option.some_bind]
    rw [hrun n]
    simp [loopMid]
  · intro cfg w
    rfl

/-- C8: the stop function is total and idempotent.  From every reachable or
unreachable world — including one where no timer was ever set — a stop call
succeeds (never raises), and a second stop call leaves the state exactly as
the first left it. -/
theorem c8_stop_idempotent (R : Type) (cfg : Config R) (w : World R) :
    ∃ w', step cfg w Ev.stopCall = some w' ∧ step cfg w' Ev.stopCall = some w' := by
  refine ⟨_, rfl, ?_⟩
  simp only [step, Option.some.injEq]
  congr 1
  simp [List.filter_filter]

/-- C9: stopping a session while its request is in flight and then calling
start again before that request resolves resurrects the superseded
session: the new start resets the shared stopped flag to false, so the old
session's request, on completion, delivers its result to the old session's
consumer and schedules the old loop's next timer (here handle 0 for
session 0's request number 1), instead of being discarded. -/
theorem c9_superseded_session_resurrected (R : Type) (d : Nat) (r : Nat → Nat → R) :
    (run (okConfig d r) [Ev.start, Ev.stopCall, Ev.start, Ev.resolve 0 0]).map
        (fun w => (w.stop, w.log, w.timers))
      = some (false, [(0, r 0 0)], [(0, 0, 1)]) := rfl

theorem sCount_append (s : Nat) (l₁ l₂ : List (Nat × Nat)) :
    sCount s (l₁ ++ l₂) = sCount s l₁ + sCount s l₂ := List.countP_append _ _ _

theorem tCount_append (s : Nat) (l₁ l₂ : List (Nat × Nat × Nat)) :
    tCount s (l₁ ++ l₂) = tCount s l₁ + tCount s l₂ := List.countP_append _ _ _

theorem sCount_singleton (s a i : Nat) :
    sCount s [(a, i)] = if a = s then 1 else 0 := by
  simp [sCount, List.countP_cons]

theorem tCount_singleton (s id a i : Nat) :
    tCount s [(id, a, i)] = if a = s then 1 else 0 := by
  simp [tCount, List.countP_cons]

theorem sCount_pos (s i : Nat) (l : List (Nat × Nat)) (h : (s, i) ∈ l) :
    1 ≤ sCount s l :=
  List.countP_pos_iff.mpr ⟨(s, i), h, by simp⟩

theorem tCount_pos (s id i : Nat) (l : List (Nat × Nat × Nat)) (h : (id, s, i) ∈ l) :
    1 ≤ tCount s l :=
  List.countP_pos_iff.mpr ⟨(id, s, i), h, by simp⟩

theorem sCount_le_of_sublist (s : Nat) (l₁ l₂ : List (Nat × Nat)) (h : l₁.Sublist l₂) :
    sCount s l₁ ≤ sCount s l₂ := h.countP_le _

theorem tCount_le_of_sublist (s : Nat) (l₁ l₂ : List (Nat × Nat × Nat)) (h : l₁.Sublist l₂) :
    tCount s l₁ ≤ tCount s l₂ := h.countP_le _

theorem sCount_erase (s i : Nat) (l : List (Nat × Nat)) (h : (s, i) ∈ l) (s' : Nat) :
    sCount s' l = sCount s' (l.erase (s, i)) + (if s = s' then 1 else 0) := by
  obtain ⟨l₁, l₂, -, hl, he⟩ := List.exists_erase_eq h
  subst hl
  rw [he]
  simp only [sCount_append, sCount, List.countP_cons]
  by_cases hs : s = s'
  · simp only [hs]
    simp
    omega
  · simp [hs]

theorem inv_init (R : Type) : Inv (init : World R) := by
  simp [Inv, init, load, sCount, tCount]

theorem inv_of_parts {R : Type} (w : World R) (st : Bool) (il : List (Nat × Nat))
    (lg : List (Nat × R)) (hsub : il.Sublist w.inflight) (hinv : Inv w) :
    Inv { w with stop := st, inflight := il, log := lg } := by
  obtain ⟨h1, h2, h3, h4⟩ := hinv
  have hle : ∀ s, load { w with stop := st, inflight := il, log := lg } s ≤ load w s := by
    intro s
    simp only [load]
    have := sCount_le_of_sublist s il w.inflight hsub
    omega
  exact ⟨fun s => le_trans (hle s) (h1 s),
         fun s hs => Nat.le_zero.mp (le_trans (hle s) (le_of_eq (h2 s hs))),
         h3, h4⟩

theorem inv_step {R : Type} (cfg : Config R) (w w' : World R) (e : Ev)
    (hinv : Inv w) (hstep : step cfg w e = some w') : Inv w' := by
  obtain ⟨h1, h2, h3, h4⟩ := hinv
  cases e with
  | start =>
      simp only [step, Option.some.injEq] at hstep
      subst hstep
      have hload : ∀ s, load { w with stop := false, nextSession := w.nextSession + 1,
                                      inflight := w.inflight ++ [(w.nextSession, 0)] } s
          = load w s + (if w.nextSession = s then 1 else 0) := by
        intro s
        simp only [load, sCount_append, sCount_singleton]
        omega
      refine ⟨?_, ?_, h3, h4⟩
      · intro s
        rw [hload s]
        by_cases hs : w.nextSession = s
        · have hz := h2 s (Nat.le_of_eq hs)
          simp only [load] at hz
          simp [hs, load]
          omega
        · simp only [hs, if_false]
          have := h1 s
          omega
      · intro s hs
        have hs' : w.nextSession + 1 ≤ s := hs
        rw [hload s]
        have hne : w.nextSession ≠ s := by omega
        have hz := h2 s (by omega)
        simp [hne, hz]
  | stopCall =>
      simp only [step, Option.some.injEq] at hstep
      subst hstep
      have hsub : (w.timers.filter (fun t => decide (some t.1 ≠ w.timer))).Sublist w.timers :=
        List.filter_sublist _
      have hle : ∀ s, load { w with stop := true,
                                    timers := w.timers.filter (fun t => decide (some t.1 ≠ w.timer)) } s
          ≤ load w s := by
        intro s
        simp only [load]
        have := tCount_le_of_sublist s _ _ hsub
        omega
      refine ⟨fun s => le_trans (hle s) (h1 s),
              fun s hs => Nat.le_zero.mp (le_trans (hle s) (le_of_eq (h2 s hs))),
              List.Nodup.sublist (hsub.map _) h3,
              fun t ht => h4 t (hsub.mem ht)⟩
  | resolve s i =>
      simp only [step] at hstep
      split at hstep
      case isFalse => simp at hstep
      case isTrue hmem =>
        have herase : ∀ s', sCount s' w.inflight
            = sCount s' (w.inflight.erase (s, i)) + (if s = s' then 1 else 0) :=
          sCount_erase s i w.inflight hmem
        have hsub : (w.inflight.erase (s, i)).Sublist w.inflight := List.erase_sublist _ _
        have hsplit : sCount s w.inflight = 1 ∧ tCount s w.timers = 0 := by
          have ha := sCount_pos s i w.inflight hmem
          have hb := h1 s
          simp only [load] at hb
          omega
        have hlt : s < w.nextSession := by
          by_contra hc
          have := h2 s (by omega)
          have ha := sCount_pos s i w.inflight hmem
          simp only [load] at this
          omega
        split at hstep
        case h_1 u hprod =>
          simp only [Option.some.injEq] at hstep
          subst hstep
          exact inv_of_parts w w.stop _ w.log hsub ⟨h1, h2, h3, h4⟩
        case h_2 r hprod =>
          split at hstep
          case isTrue hstop =>
            simp only [Option.some.injEq] at hstep
            subst hstep
            exact inv_of_parts w w.stop _ w.log hsub ⟨h1, h2, h3, h4⟩
          case isFalse hstop =>
            split at hstep
            case isTrue hthrow =>
              simp only [Option.some.injEq] at hstep
              subst hstep
              exact inv_of_parts w w.stop _ _ hsub ⟨h1, h2, h3, h4⟩
            case isFalse hthrow =>
              simp only [Option.some.injEq] at hstep
              subst hstep
              refine ⟨?_, ?_, ?_, ?_⟩
              · intro s'
                simp only [load, tCount_append, tCount_singleton]
                have h1' := h1 s'
                have he := herase s'
                simp only [load] at h1'
                by_cases hs : s = s'
                · simp only [hs, if_pos] at he ⊢
                  simp [hs] at he ⊢
                  omega
                · simp [hs] at he ⊢
                  omega
              · intro s' hs'
                have hs2 : w.nextSession ≤ s' := hs'
                simp only [load, tCount_append, tCount_singleton]
                have hz := h2 s' hs2
                have he := herase s'
                have hne : s ≠ s' := by omega
                simp only [load] at hz
                simp [hne] at he ⊢
                omega
              · simp only [List.map_append]
                rw [List.nodup_append]
                refine ⟨h3, by simp, ?_⟩
                intro a ha hb
                simp only [List.map_cons, List.map_nil, List.mem_singleton] at hb
                subst hb
                simp only [List.mem_map] at ha
                obtain ⟨t, ht, heq⟩ := ha
                have := h4 t ht
                omega
              · intro t ht
                simp only [List.mem_append, List.mem_singleton] at ht
                show t.1 < w.nextTimerId + 1
                cases ht with
                | inl h => have := h4 t h; omega
                | inr h => subst h; omega
  | fire id =>
      simp only [step] at hstep
      split at hstep
      case h_2 => simp at hstep
      case h_1 t tid ts ti hfind =>
        simp only [Option.some.injEq] at hstep
        subst hstep
        simp only [ne_eq, decide_not]
        have hmem : (tid, ts, ti) ∈ w.timers := List.mem_of_find?_eq_some hfind
        have hid : tid = id := by
          have := List.find?_some hfind
          simpa using this
        subst hid
        obtain ⟨l₁, l₂, hT⟩ := List.append_of_mem hmem
        have htC : tCount ts w.timers = tCount ts l₁ + tCount ts l₂ + 1 := by
          rw [hT]
          simp [tCount_append, tCount, List.countP_cons]
          omega
        have hsplit : sCount ts w.inflight = 0 ∧ tCount ts l₁ = 0 ∧ tCount ts l₂ = 0 := by
          have hb := h1 ts
          simp only [load] at hb
          omega
        have hfilter : w.timers.filter (fun t => !decide (t.1 = tid))
            = l₁.filter (fun t => !decide (t.1 = tid)) ++ l₂.filter (fun t => !decide (t.1 = tid)) := by
          rw [hT, List.filter_append, List.filter_cons_of_neg (by simp)]
        have hfsub : (w.timers.filter (fun t => !decide (t.1 = tid))).Sublist w.timers :=
          List.filter_sublist _
        have hlt : ts < w.nextSession := by
          by_contra hc
          have := h2 ts (by omega)
          simp only [load] at this
          omega
        refine ⟨?_, ?_, List.Nodup.sublist (hfsub.map _) h3,
                fun t ht => h4 t (hfsub.mem ht)⟩
        · intro s'
          simp only [load, sCount_append, sCount_singleton]
          by_cases hs : ts = s'
          · subst hs
            have hz1 : tCount ts (w.timers.filter (fun t => !decide (t.1 = tid))) = 0 := by
              rw [hfilter, tCount_append]
              have ha := tCount_le_of_sublist ts _ _
                (@List.filter_sublist _ (fun t => !decide (t.1 = tid)) l₁)
              have hb := tCount_le_of_sublist ts _ _
                (@List.filter_sublist _ (fun t => !decide (t.1 = tid)) l₂)
              omega
            simp [hz1, hsplit.1]
          · have ha := tCount_le_of_sublist s' _ _ hfsub
            have hb := h1 s'
            simp only [load] at hb
            simp only [hs, if_false]
            omega
        · intro s' hs'
          have hs2 : w.nextSession ≤ s' := hs'
          have hne : ts ≠ s' := by omega
          have hz := h2 s' hs2
          have ha := tCount_le_of_sublist s' _ _ hfsub
          simp only [load] at hz ⊢
          simp only [sCount_append, sCount_singleton, hne, if_false]
          omega

theorem inv_runFrom {R : Type} (cfg : Config R) :
    ∀ (evs : List Ev) (w w' : World R), Inv w → runFrom cfg w evs = some w' → Inv w' := by
  intro evs
  induction evs with
  | nil => intro w w' hinv h; simp [runFrom] at h; subst h; exact hinv
  | cons e es ih =>
      intro w w' hinv h
      simp only [runFrom] at h
      cases hs : step cfg w e with
      | none => rw [hs] at h; simp at h
      | some w1 =>
          rw [hs] at h
          exact ih w1 w' (inv_step cfg w w1 e hinv hs) h

theorem inv_run {R : Type} (cfg : Config R) (evs : List Ev) (w : World R)
    (h : run cfg evs = some w) : Inv w :=
  inv_runFrom cfg evs init w (inv_init R) h

theorem logCount_append {R : Type} (s : Nat) (l₁ l₂ : List (Nat × R)) :
    logCount s (l₁ ++ l₂) = logCount s l₁ + logCount s l₂ := List.countP_append _ _ _

theorem logCount_singleton {R : Type} (s a : Nat) (r : R) :
    logCount s [(a, r)] = if a = s then 1 else 0 := by
  simp [logCount, List.countP_cons]

theorem dead_step {R : Type} (cfg : Config R) (w w' : World R) (e : Ev) (s : Nat)
    (hlt : s < w.nextSession) (hdead : load w s = 0)
    (hstep : step cfg w e = some w') :
    s < w'.nextSession ∧ load w' s = 0 ∧ logCount s w'.log = logCount s w.log := by
  cases e with
  | start =>
      simp only [step, Option.some.injEq] at hstep
      subst hstep
      have hne : w.nextSession ≠ s := by omega
      refine ⟨by show s < w.nextSession + 1; omega, ?_, rfl⟩
      simp only [load] at hdead
      show sCount s (w.inflight ++ [(w.nextSession, 0)]) + tCount s w.timers = 0
      rw [sCount_append, sCount_singleton, if_neg hne]
      omega
  | stopCall =>
      simp only [step, Option.some.injEq] at hstep
      subst hstep
      refine ⟨hlt, ?_, rfl⟩
      have hb := tCount_le_of_sublist s _ _
        (@List.filter_sublist _ (fun t => decide (some t.1 ≠ w.timer)) w.timers)
      simp only [load] at hdead
      show sCount s w.inflight
          + tCount s (w.timers.filter (fun t => decide (some t.1 ≠ w.timer))) = 0
      omega
  | resolve s' i =>
      simp only [step] at hstep
      split at hstep
      case isFalse => simp at hstep
      case isTrue hmem =>
        have hsub := List.erase_sublist (s', i) w.inflight
        have hesub := sCount_le_of_sublist s _ _ hsub
        have hne : s' ≠ s := by
          intro hcontra
          subst hcontra
          have := sCount_pos s' i w.inflight hmem
          simp only [load] at hdead
          omega
        split at hstep
        case h_1 u hprod =>
          simp only [Option.some.injEq] at hstep
          subst hstep
          refine ⟨hlt, ?_, rfl⟩
          simp only [load] at hdead
          show sCount s (w.inflight.erase (s', i)) + tCount s w.timers = 0
          omega
        case h_2 r hprod =>
          split at hstep
          case isTrue hstop =>
            simp only [Option.some.injEq] at hstep
            subst hstep
            refine ⟨hlt, ?_, rfl⟩
            simp only [load] at hdead
            show sCount s (w.inflight.erase (s', i)) + tCount s w.timers = 0
            omega
          case isFalse hstop =>
            split at hstep
            case isTrue hthrow =>
              simp only [Option.some.injEq] at hstep
              subst hstep
              refine ⟨hlt, ?_, ?_⟩
              · simp only [load] at hdead
                show sCount s (w.inflight.erase (s', i)) + tCount s w.timers = 0
                omega
              · show logCount s (w.log ++ [(s', r)]) = logCount s w.log
                rw [logCount_append, logCount_singleton, if_neg hne]
                omega
            case isFalse hthrow =>
              simp only [Option.some.injEq] at hstep
              subst hstep
              refine ⟨hlt, ?_, ?_⟩
              · simp only [load] at hdead
                show sCount s (w.inflight.erase (s', i))
                    + tCount s (w.timers ++ [(w.nextTimerId, s', i + 1)]) = 0
                rw [tCount_append, tCount_singleton, if_neg hne]
                omega
              · show logCount s (w.log ++ [(s', r)]) = logCount s w.log
                rw [logCount_append, logCount_singleton, if_neg hne]
                omega
  | fire id =>
      simp only [step] at hstep
      split at hstep
      case h_2 => simp at hstep
      case h_1 t tid ts ti hfind =>
        simp only [Option.some.injEq] at hstep
        subst hstep
        have hmem : (tid, ts, ti) ∈ w.timers := List.mem_of_find?_eq_some hfind
        have hid : tid = id := by
          have := List.find?_some hfind
          simpa using this
        subst hid
        have hne : ts ≠ s := by
          intro hcontra
          subst hcontra
          have := tCount_pos ts tid ti w.timers hmem
          simp only [load] at hdead
          omega
        have hb := tCount_le_of_sublist s _ _
          (@List.filter_sublist _ (fun t => decide (t.1 ≠ tid)) w.timers)
        refine ⟨hlt, ?_, rfl⟩
        simp only [load] at hdead
        show sCount s (w.inflight ++ [(ts, ti)])
            + tCount s (w.timers.filter (fun t => decide (t.1 ≠ tid))) = 0
        rw [sCount_append, sCount_singleton, if_neg hne]
        omega

theorem dead_runFrom {R : Type} (cfg : Config R) (s : Nat) :
    ∀ (evs : List Ev) (w w' : World R), s < w.nextSession → load w s = 0 →
      runFrom cfg w evs = some w' →
      s < w'.nextSession ∧ load w' s = 0 ∧ logCount s w'.log = logCount s w.log := by
  intro evs
  induction evs with
  | nil =>
      intro w w' hlt hdead h
      simp [runFrom] at h
      subst h
      exact ⟨hlt, hdead, rfl⟩
  | cons e es ih =>
      intro w w' hlt hdead h
      simp only [runFrom] at h
      cases hs : step cfg w e with
      | none => rw [hs] at h; simp at h
      | some w1 =>
          rw [hs] at h
          obtain ⟨ha, hb, hc⟩ := dead_step cfg w w1 e s hlt hdead hs
          obtain ⟨hd, he, hf⟩ := ih w1 w' ha hb h
          exact ⟨hd, he, by rw [hf, hc]⟩

/-- C7: in every reachable world, each session has at most one request in
flight: the loop awaits the current request's completion before scheduling
the next one, so requests of one session never overlap. -/
theorem c7_at_most_one_inflight (R : Type) (cfg : Config R) (evs : List Ev) (w : World R)
    (h : run cfg evs = some w) (s : Nat) : sCount s w.inflight ≤ 1 := by
  have hinv := inv_run cfg evs w h
  have h1 := hinv.1 s
  simp only [load] at h1
  omega

/-- Witness for C7: the schedule start; resolve; fire reaches a world whose
in-flight list is `[(0, 1)]`, and session 0 indeed has at most one request
in flight there. -/
theorem c7_at_most_one_inflight_witness : sCount 0 [(0, 1)] ≤ 1 :=
  c7_at_most_one_inflight Nat demoConfig [Ev.start, Ev.resolve 0 0, Ev.fire 0]
    { stop := false, timer := some 0, nextTimerId := 1, nextSession := 1,
      inflight := [(0, 1)], timers := [], log := [(0, 1)] } rfl 0

/-- C5: if a session's request rejects on some iteration, the poller does
not catch it: the consumer is not invoked for that iteration (log
unchanged), nothing is scheduled (timers and timer-handle counter
unchanged), the session's load drops to zero, and on every possible
continuation of the run the session never receives another consumer
invocation and never has a request or timer outstanding again. -/
theorem c5_request_failure (R : Type) (cfg : Config R) (evs : List Ev) (w w' : World R)
    (s i : Nat) (hreach : run cfg evs = some w)
    (hfail : cfg.producers s i = Except.error ())
    (hstep : step cfg w (Ev.resolve s i) = some w') :
    (w'.log = w.log ∧ w'.timers = w.timers ∧ w'.nextTimerId = w.nextTimerId)
    ∧ load w' s = 0
    ∧ (∀ (evs' : List Ev) (w'' : World R), runFrom cfg w' evs' = some w'' →
        logCount s w''.log = logCount s w'.log ∧ load w'' s = 0) := by
  obtain ⟨h1, h2, h3, h4⟩ := inv_run cfg evs w hreach
  simp only [step] at hstep
  split at hstep
  case isFalse => simp at hstep
  case isTrue hmem =>
    simp only [hfail, Option.some.injEq] at hstep
    subst hstep
    have hpos := sCount_pos s i w.inflight hmem
    have hlt : s < w.nextSession := by
      by_contra hc
      have hz := h2 s (by omega)
      simp only [load] at hz
      omega
    have hone : sCount s w.inflight = 1 ∧ tCount s w.timers = 0 := by
      have hb := h1 s
      simp only [load] at hb
      omega
    have herase := sCount_erase s i w.inflight hmem s
    rw [if_pos rfl] at herase
    have hdead : load { w with inflight := w.inflight.erase (s, i) } s = 0 := by
      show sCount s (w.inflight.erase (s, i)) + tCount s w.timers = 0
      omega
    refine ⟨⟨rfl, rfl, rfl⟩, hdead, ?_⟩
    intro evs' w'' hrun'
    have hd := dead_runFrom cfg s evs' _ w'' (by show s < w.nextSession; omega) hdead hrun'
    exact ⟨hd.2.2, hd.2.1⟩

/-- Witness for C5 (the spec's scenario: the 2nd request call rejects):
after one successful iteration of `failConfig`, resolving the failed
request number 1 leaves the log at `[(0, 1)]`, schedules nothing, and a
subsequent stop call still finds the session dead. -/
theorem c5_request_failure_witness :
    ((⟨false, some 0, 1, 1, [], [], [(0, 1)]⟩ : World Nat).log
        = (⟨false, some 0, 1, 1, [(0, 1)], [], [(0, 1)]⟩ : World Nat).log
      ∧ (⟨false, some 0, 1, 1, [], [], [(0, 1)]⟩ : World Nat).timers
        = (⟨false, some 0, 1, 1, [(0, 1)], [], [(0, 1)]⟩ : World Nat).timers
      ∧ (⟨false, some 0, 1, 1, [], [], [(0, 1)]⟩ : World Nat).nextTimerId
        = (⟨false, some 0, 1, 1, [(0, 1)], [], [(0, 1)]⟩ : World Nat).nextTimerId)
    ∧ load (⟨false, some 0, 1, 1, [], [], [(0, 1)]⟩ : World Nat) 0 = 0
    ∧ (logCount 0 (⟨true, some 0, 1, 1, [], [], [(0, 1)]⟩ : World Nat).log
        = logCount 0 (⟨false, some 0, 1, 1, [], [], [(0, 1)]⟩ : World Nat).log
      ∧ load (⟨true, some 0, 1, 1, [], [], [(0, 1)]⟩ : World Nat) 0 = 0) := by
  have h := c5_request_failure Nat failConfig [Ev.start, Ev.resolve 0 0, Ev.fire 0]
    (⟨false, some 0, 1, 1, [(0, 1)], [], [(0, 1)]⟩ : World Nat)
    (⟨false, some 0, 1, 1, [], [], [(0, 1)]⟩ : World Nat) 0 1 rfl rfl rfl
  exact ⟨h.1, h.2.1, h.2.2 [Ev.stopCall] _ rfl⟩

/-- C10: within one iteration the consumer is invoked before the next
timer is scheduled; hence when the consumer throws, the result was
delivered (log grows by that one invocation) but no timer is scheduled
(timers and timer-handle counter unchanged), and the session is dead: on
every continuation it never receives another invocation and never has a
request or timer outstanding — a failing consumer silently ends the
session just like a failing request. -/
theorem c10_consumer_throw (R : Type) (cfg : Config R) (evs : List Ev) (w w' : World R)
    (s i : Nat) (r : R) (hreach : run cfg evs = some w)
    (hok : cfg.producers s i = Except.ok r)
    (hthrow : cfg.consumerThrows s r = true)
    (hstop : w.stop = false)
    (hstep : step cfg w (Ev.resolve s i) = some w') :
    (w'.log = w.log ++ [(s, r)] ∧ w'.timers = w.timers ∧ w'.nextTimerId = w.nextTimerId)
    ∧ load w' s = 0
    ∧ (∀ (evs' : List Ev) (w'' : World R), runFrom cfg w' evs' = some w'' →
        logCount s w''.log = logCount s w'.log ∧ load w'' s = 0) := by
  obtain ⟨h1, h2, h3, h4⟩ := inv_run cfg evs w hreach
  simp only [step] at hstep
  split at hstep
  case isFalse => simp at hstep
  case isTrue hmem =>
    simp only [hok, hstop, hthrow, Bool.false_eq_true, if_false, if_true,
      Option.some.injEq] at hstep
    subst hstep
    have hpos := sCount_pos s i w.inflight hmem
    have hlt : s < w.nextSession := by
      by_contra hc
      have hz := h2 s (by omega)
      simp only [load] at hz
      omega
    have hone : sCount s w.inflight = 1 ∧ tCount s w.timers = 0 := by
      have hb := h1 s
      simp only [load] at hb
      omega
    have herase := sCount_erase s i w.inflight hmem s
    rw [if_pos rfl] at herase
    have hdead : load { w with stop := false, inflight := w.inflight.erase (s, i),
                               log := w.log ++ [(s, r)] } s = 0 := by
      show sCount s (w.inflight.erase (s, i)) + tCount s w.timers = 0
      omega
    refine ⟨⟨rfl, rfl, rfl⟩, hdead, ?_⟩
    intro evs' w'' hrun'
    have hd := dead_runFrom cfg s evs' _ w'' (by show s < w.nextSession; omega) hdead hrun'
    exact ⟨hd.2.2, hd.2.1⟩

/-- Witness for C10: with `throwConfig` (consumer throws on the value 2),
resolving request number 1 appends `(0, 2)` to the log yet schedules no
timer, and a subsequent stop call finds the session dead. -/
theorem c10_consumer_throw_witness :
    ((⟨false, some 0, 1, 1, [], [], [(0, 1), (0, 2)]⟩ : World Nat).log
        = (⟨false, some 0, 1, 1, [(0, 1)], [], [(0, 1)]⟩ : World Nat).log ++ [(0, 2)]
      ∧ (⟨false, some 0, 1, 1, [], [], [(0, 1), (0, 2)]⟩ : World Nat).timers
        = (⟨false, some 0, 1, 1, [(0, 1)], [], [(0, 1)]⟩ : World Nat).timers
      ∧ (⟨false, some 0, 1, 1, [], [], [(0, 1), (0, 2)]⟩ : World Nat).nextTimerId
        = (⟨false, some 0, 1, 1, [(0, 1)], [], [(0, 1)]⟩ : World Nat).nextTimerId)
    ∧ load (⟨false, some 0, 1, 1, [], [], [(0, 1), (0, 2)]⟩ : World Nat) 0 = 0
    ∧ (logCount 0 (⟨true, some 0, 1, 1, [], [], [(0, 1), (0, 2)]⟩ : World Nat).log
        = logCount 0 (⟨false, some 0, 1, 1, [], [], [(0, 1), (0, 2)]⟩ : World Nat).log
      ∧ load (⟨true, some 0, 1, 1, [], [], [(0, 1), (0, 2)]⟩ : World Nat) 0 = 0) := by
  have h := c10_consumer_throw Nat throwConfig [Ev.start, Ev.resolve 0 0, Ev.fire 0]
    (⟨false, some 0, 1, 1, [(0, 1)], [], [(0, 1)]⟩ : World Nat)
    (⟨false, some 0, 1, 1, [], [], [(0, 1), (0, 2)]⟩ : World Nat) 0 1 2 rfl rfl rfl rfl rfl
  exact ⟨h.1, h.2.1, h.2.2 [Ev.stopCall] _ rfl⟩

theorem stopped_step {R : Type} (cfg : Config R) (w w' : World R) (e : Ev)
    (hstop : w.stop = true) (hne : e ≠ Ev.start) (hstep : step cfg w e = some w') :
    w'.stop = true ∧ w'.log = w.log ∧ w'.nextTimerId = w.nextTimerId
      ∧ w'.timers.Sublist w.timers := by
  cases e with
  | start => exact absurd rfl hne
  | stopCall =>
      simp only [step, Option.some.injEq] at hstep
      subst hstep
      exact ⟨rfl, rfl, rfl, List.filter_sublist _⟩
  | resolve s i =>
      simp only [step] at hstep
      split at hstep
      case isFalse => simp at hstep
      case isTrue hmem =>
        split at hstep
        case h_1 u hprod =>
          simp only [Option.some.injEq] at hstep
          subst hstep
          exact ⟨hstop, rfl, rfl, List.Sublist.refl _⟩
        case h_2 r hprod =>
          rw [hstop] at hstep
          simp only [Option.some.injEq] at hstep
          subst hstep
          exact ⟨rfl, rfl, rfl, List.Sublist.refl _⟩
  | fire id =>
      simp only [step] at hstep
      split at hstep
      case h_2 => simp at hstep
      case h_1 t tid ts ti hfind =>
        simp only [Option.some.injEq] at hstep
        subst hstep
        exact ⟨hstop, rfl, rfl, List.filter_sublist _⟩

theorem stopped_runFrom {R : Type} (cfg : Config R) :
    ∀ (evs : List Ev) (w w' : World R), w.stop = true → Ev.start ∉ evs →
      runFrom cfg w evs = some w' →
      w'.stop = true ∧ w'.log = w.log ∧ w'.nextTimerId = w.nextTimerId
        ∧ w'.timers.Sublist w.timers := by
  intro evs
  induction evs with
  | nil =>
      intro w w' hstop _ h
      simp [runFrom] at h
      subst h
      exact ⟨hstop, rfl, rfl, List.Sublist.refl _⟩
  | cons e es ih =>
      intro w w' hstop hmem h
      simp only [runFrom] at h
      have hne : e ≠ Ev.start := by
        intro hcontra
        exact hmem (by rw [hcontra]; exact List.mem_cons_self _ _)
      have hmem' : Ev.start ∉ es := fun hc => hmem (List.mem_cons_of_mem _ hc)
      cases hs : step cfg w e with
      | none => rw [hs] at h; simp at h
      | some w1 =>
          rw [hs] at h
          obtain ⟨ha, hb, hc, hd⟩ := stopped_step cfg w w1 e hstop hne hs
          obtain ⟨he, hf, hg, hh⟩ := ih w1 w' ha hmem' h
          exact ⟨he, by rw [hf, hb], by rw [hg, hc], hh.trans hd⟩

/-- C2 (amended): once the stop function has been invoked, as long as
start is not called again on the same poller, no further Result Consumer
invocation and no further timer scheduling occurs — from any world whose
stopped flag is set, any start-free continuation leaves the log unchanged
and creates no timer (the timer pool only shrinks, the handle counter is
unchanged); in-flight requests run to completion with their results
silently discarded.  In particular `start; stop` followed by any
start-free continuation yields zero consumer invocations. -/
theorem c2_stop_silences_sessions (R : Type) (cfg : Config R) :
    (∀ (w w' : World R) (evs : List Ev), w.stop = true → Ev.start ∉ evs →
        runFrom cfg w evs = some w' →
        w'.log = w.log ∧ w'.nextTimerId = w.nextTimerId ∧ w'.timers.Sublist w.timers)
    ∧ (∀ (evs : List Ev) (w' : World R), Ev.start ∉ evs →
        run cfg (Ev.start :: Ev.stopCall :: evs) = some w' → w'.log = []) := by
  constructor
  · intro w w' evs hstop hmem h
    obtain ⟨-, hb, hc, hd⟩ := stopped_runFrom cfg evs w w' hstop hmem h
    exact ⟨hb, hc, hd⟩
  · intro evs w' hmem h
    have hrw : run cfg (Ev.start :: Ev.stopCall :: evs)
        = runFrom cfg (⟨true, none, 0, 1, [(0, 0)], [], []⟩ : World R) evs := rfl
    rw [hrw] at h
    obtain ⟨-, hb, -, -⟩ := stopped_runFrom cfg evs _ w' rfl hmem h
    exact hb

/-- Witness for C2: from a stopped world with session 0's request in
flight, resolving that request (under `demoConfig`) delivers nothing; and
the concrete run `start; stop; resolve` ends with an empty log. -/
theorem c2_stop_silences_sessions_witness :
    ((⟨true, none, 0, 1, [], [], []⟩ : World Nat).log
        = (⟨true, none, 0, 1, [(0, 0)], [], []⟩ : World Nat).log
      ∧ (⟨true, none, 0, 1, [], [], []⟩ : World Nat).nextTimerId
        = (⟨true, none, 0, 1, [(0, 0)], [], []⟩ : World Nat).nextTimerId
      ∧ (⟨true, none, 0, 1, [], [], []⟩ : World Nat).timers.Sublist
          (⟨true, none, 0, 1, [(0, 0)], [], []⟩ : World Nat).timers)
    ∧ (⟨true, none, 0, 1, [], [], []⟩ : World Nat).log = [] := by
  refine ⟨(c2_stop_silences_sessions Nat demoConfig).1
      (⟨true, none, 0, 1, [(0, 0)], [], []⟩ : World Nat)
      (⟨true, none, 0, 1, [], [], []⟩ : World Nat)
      [Ev.resolve 0 0] rfl (by decide) rfl, ?_⟩
  exact (c2_stop_silences_sessions Nat demoConfig).2 [Ev.resolve 0 0]
    (⟨true, none, 0, 1, [], [], []⟩ : World Nat) (by decide) rfl

theorem load_pos_inflight {R : Type} (w : World R) (s i : Nat) (h : (s, i) ∈ w.inflight) :
    1 ≤ load w s := by
  have := sCount_pos s i w.inflight h
  simp only [load]
  omega

theorem load_pos_timers {R : Type} (w : World R) (id s i : Nat) (h : (id, s, i) ∈ w.timers) :
    1 ≤ load w s := by
  have := tCount_pos s id i w.timers h
  simp only [load]
  omega

theorem live_session_lt {R : Type} (w : World R) (s : Nat)
    (h2 : ∀ s, w.nextSession ≤ s → load w s = 0) (hpos : 1 ≤ load w s) :
    s < w.nextSession := by
  by_contra hc
  have := h2 s (by omega)
  omega

theorem step_nextSession {R : Type} (cfg : Config R) (w w' : World R) (e : Ev)
    (h : step cfg w e = some w') :
    w'.nextSession = w.nextSession + (if e = Ev.start then 1 else 0) := by
  cases e with
  | start => simp only [step, Option.some.injEq] at h; subst h; simp
  | stopCall => simp only [step, Option.some.injEq] at h; subst h; simp
  | resolve s i =>
      simp only [step] at h
      split at h
      case isFalse => simp at h
      case isTrue hmem =>
        split at h
        case h_1 u hp => simp only [Option.some.injEq] at h; subst h; simp
        case h_2 r hp =>
          split at h
          case isTrue => simp only [Option.some.injEq] at h; subst h; simp
          case isFalse =>
            split at h
            case isTrue => simp only [Option.some.injEq] at h; subst h; simp
            case isFalse => simp only [Option.some.injEq] at h; subst h; simp
  | fire id =>
      simp only [step] at h
      split at h
      case h_2 => simp at h
      case h_1 t tid ts ti hfind => simp only [Option.some.injEq] at h; subst h; simp

theorem onesess_step {R : Type} (cfg : Config R) (w w' : World R) (e : Ev)
    (hinv : Inv w) (hns : w.nextSession ≤ 1) (hts : TimerShape w)
    (hstep : step cfg w e = some w') : TimerShape w' := by
  obtain ⟨h1, h2, h3, h4⟩ := hinv
  cases e with
  | start =>
      simp only [step, Option.some.injEq] at hstep
      subst hstep
      exact hts
  | stopCall =>
      simp only [step, Option.some.injEq] at hstep
      subst hstep
      cases hts with
      | inl h =>
          left
          show w.timers.filter (fun t => decide (some t.1 ≠ w.timer)) = []
          rw [h]
          rfl
      | inr hex =>
          obtain ⟨t, ht, htm⟩ := hex
          left
          show w.timers.filter (fun t => decide (some t.1 ≠ w.timer)) = []
          rw [ht, htm]
          simp
  | resolve s i =>
      simp only [step] at hstep
      split at hstep
      case isFalse => simp at hstep
      case isTrue hmem =>
        split at hstep
        case h_1 u hp =>
          simp only [Option.some.injEq] at hstep; subst hstep; exact hts
        case h_2 r hp =>
          split at hstep
          case isTrue =>
            simp only [Option.some.injEq] at hstep; subst hstep; exact hts
          case isFalse hstop =>
            split at hstep
            case isTrue =>
              simp only [Option.some.injEq] at hstep; subst hstep; exact hts
            case isFalse hthrow =>
              simp only [Option.some.injEq] at hstep
              subst hstep
              have hTe : w.timers = [] := by
                cases hts with
                | inl h => exact h
                | inr hex =>
                    obtain ⟨t, ht, -⟩ := hex
                    exfalso
                    have htmem : t ∈ w.timers := by
                      rw [ht]; exact List.mem_singleton.mpr rfl
                    have hlp := load_pos_timers w t.1 t.2.1 t.2.2 htmem
                    have hsp := load_pos_inflight w s i hmem
                    have htlt := live_session_lt w t.2.1 h2 hlp
                    have hslt := live_session_lt w s h2 hsp
                    have ht0 : t.2.1 = 0 := by omega
                    have hs0 : s = 0 := by omega
                    have h1t := tCount_pos t.2.1 t.1 t.2.2 w.timers htmem
                    have h1s := sCount_pos s i w.inflight hmem
                    rw [ht0] at h1t
                    rw [hs0] at h1s
                    have h10 := h1 0
                    simp only [load] at h10
                    omega
              right
              refine ⟨(w.nextTimerId, s, i + 1), ?_, rfl⟩
              show w.timers ++ [(w.nextTimerId, s, i + 1)] = [(w.nextTimerId, s, i + 1)]
              rw [hTe]
              rfl
  | fire id =>
      simp only [step] at hstep
      split at hstep
      case h_2 => simp at hstep
      case h_1 t' tid ts ti hfind =>
        simp only [Option.some.injEq] at hstep
        subst hstep
        have hid : tid = id := by
          have := List.find?_some hfind
          simpa using this
        subst hid
        cases hts with
        | inl h => rw [h] at hfind; simp [List.find?] at hfind
        | inr hex =>
            obtain ⟨t, ht, htm⟩ := hex
            left
            show w.timers.filter (fun t => decide (t.1 ≠ tid)) = []
            have hmem : (tid, ts, ti) ∈ w.timers := List.mem_of_find?_eq_some hfind
            rw [ht] at hmem
            have hteq : t = (tid, ts, ti) := (List.mem_singleton.mp hmem).symm
            rw [ht, hteq]
            simp

theorem onesess_runFrom {R : Type} (cfg : Config R) :
    ∀ (evs : List Ev) (w w' : World R), Inv w → TimerShape w →
      w.nextSession + evs.count Ev.start ≤ 1 →
      runFrom cfg w evs = some w' →
      Inv w' ∧ TimerShape w' ∧ w'.nextSession ≤ 1 := by
  intro evs
  induction evs with
  | nil =>
      intro w w' hinv hts hcount h
      simp [runFrom] at h
      subst h
      simp only [List.count_nil] at hcount
      exact ⟨hinv, hts, by omega⟩
  | cons e es ih =>
      intro w w' hinv hts hcount h
      simp only [runFrom] at h
      cases hs : step cfg w e with
      | none => rw [hs] at h; simp at h
      | some w1 =>
          rw [hs] at h
          rw [List.count_cons] at hcount
          have hns : w.nextSession ≤ 1 := by omega
          have hstep_ns := step_nextSession cfg w w1 e hs
          have hts1 := onesess_step cfg w w1 e hinv hns hts hs
          have hinv1 := inv_step cfg w w1 e hinv hs
          have hcount1 : w1.nextSession + es.count Ev.start ≤ 1 := by
            by_cases he : e = Ev.start
            · subst he
              rw [if_pos rfl] at hstep_ns
              rw [show (Ev.start == Ev.start) = true from rfl, if_pos rfl] at hcount
              omega
            · rw [if_neg he] at hstep_ns
              have hbe : (e == Ev.start) = false := by
                simp [he]
              rw [hbe] at hcount
              simp at hcount
              omega
          exact ih w1 w' hinv1 hts1 hcount1 h

theorem onesess_run {R : Type} (cfg : Config R) (evs : List Ev) (w : World R)
    (hcount : evs.count Ev.start ≤ 1) (h : run cfg evs = some w) :
    Inv w ∧ TimerShape w ∧ w.nextSession ≤ 1 :=
  onesess_runFrom cfg evs init w (inv_init R) (Or.inl rfl)
    (by show 0 + evs.count Ev.start ≤ 1; omega) h

theorem halted_step {R : Type} (cfg : Config R) (w w' : World R) (e : Ev)
    (hstop : w.stop = true) (hte : w.timers = []) (hne : e ≠ Ev.start)
    (hstep : step cfg w e = some w') :
    w'.stop = true ∧ w'.timers = [] ∧ w'.log = w.log
      ∧ w'.inflight.Sublist w.inflight ∧ w'.nextTimerId = w.nextTimerId := by
  cases e with
  | start => exact absurd rfl hne
  | stopCall =>
      simp only [step, Option.some.injEq] at hstep
      subst hstep
      refine ⟨rfl, ?_, rfl, List.Sublist.refl _, rfl⟩
      show w.timers.filter (fun t => decide (some t.1 ≠ w.timer)) = []
      rw [hte]
      rfl
  | resolve s i =>
      simp only [step] at hstep
      split at hstep
      case isFalse => simp at hstep
      case isTrue hmem =>
        split at hstep
        case h_1 u hp =>
          simp only [Option.some.injEq] at hstep
          subst hstep
          exact ⟨hstop, hte, rfl, List.erase_sublist _ _, rfl⟩
        case h_2 r hp =>
          rw [hstop] at hstep
          simp only [Option.some.injEq] at hstep
          subst hstep
          exact ⟨rfl, hte, rfl, List.erase_sublist _ _, rfl⟩
  | fire id =>
      simp only [step] at hstep
      rw [hte] at hstep
      simp [List.find?] at hstep

theorem halted_runFrom {R : Type} (cfg : Config R) :
    ∀ (evs : List Ev) (w w' : World R), w.stop = true → w.timers = [] →
      Ev.start ∉ evs → runFrom cfg w evs = some w' →
      w'.stop = true ∧ w'.timers = [] ∧ w'.log = w.log
        ∧ w'.inflight.Sublist w.inflight ∧ w'.nextTimerId = w.nextTimerId := by
  intro evs
  induction evs with
  | nil =>
      intro w w' hstop hte _ h
      simp [runFrom] at h
      subst h
      exact ⟨hstop, hte, rfl, List.Sublist.refl _, rfl⟩
  | cons e es ih =>
      intro w w' hstop hte hmem h
      simp only [runFrom] at h
      have hne : e ≠ Ev.start := by
        intro hcontra
        exact hmem (by rw [hcontra]; exact List.mem_cons_self _ _)
      have hmem' : Ev.start ∉ es := fun hc => hmem (List.mem_cons_of_mem _ hc)
      cases hs : step cfg w e with
      | none => rw [hs] at h; simp at h
      | some w1 =>
          rw [hs] at h
          obtain ⟨ha, hb, hc, hd, he⟩ := halted_step cfg w w1 e hstop hte hne hs
          obtain ⟨hf, hg, hh, hi, hj⟩ := ih w1 w' ha hb hmem' h
          exact ⟨hf, hg, by rw [hh, hc], hi.trans hd, by rw [hj, he]⟩

/-- C3 counterexample: the claim "invoking stop cancels any pending
scheduled timer, and after stop no scheduled iteration ever fires and no
further request is issued" fails as stated when two sessions overlap.
Concretely: session 0 completes one iteration (its next-iteration timer,
handle 0, is pending); a second start issues session 1's request, whose
resolution stores timer handle 1; stop then cancels only the stored
handle 1, so session 0's pending timer handle 0 survives, fires after
stop, and issues session 0's request number 1 while the stopped flag is
set. -/
theorem c3_stale_timer_counterexample :
    (run demoConfig [Ev.start, Ev.resolve 0 0, Ev.start, Ev.resolve 1 0,
        Ev.stopCall, Ev.fire 0]).map (fun w => (w.stop, w.inflight, w.timers))
      = some (true, [(0, 1)], []) := rfl

/-- C3 (amended): stop cancels the pending timer whose handle is the one
currently stored; when at most one session has ever been started on the
poller, this is every pending timer, so after the stop call the timer pool
is empty and — absent a further start — advancing time by any amount never
fires a scheduled iteration: the log never changes (no result delivered),
the timer pool stays empty, the in-flight pool only shrinks (no request
issued), and the timer-handle counter is unchanged. -/
theorem c3_stop_cancels_single_session (R : Type) (cfg : Config R) (evs : List Ev)
    (w w1 : World R) (hcount : evs.count Ev.start ≤ 1)
    (hrun : run cfg evs = some w)
    (hstop : step cfg w Ev.stopCall = some w1) :
    w1.timers = []
    ∧ (∀ (evs' : List Ev) (w' : World R), Ev.start ∉ evs' →
        runFrom cfg w1 evs' = some w' →
        w'.log = w1.log ∧ w'.timers = [] ∧ w'.inflight.Sublist w1.inflight
          ∧ w'.nextTimerId = w1.nextTimerId) := by
  obtain ⟨hinv, hts, hns⟩ := onesess_run cfg evs w hcount hrun
  simp only [step, Option.some.injEq] at hstop
  subst hstop
  have hT : w.timers.filter (fun t => decide (some t.1 ≠ w.timer)) = [] := by
    cases hts with
    | inl h => rw [h]; rfl
    | inr hex =>
        obtain ⟨t, ht, htm⟩ := hex
        rw [ht, htm]
        simp
  refine ⟨hT, ?_⟩
  intro evs' w' hmem hrun'
  obtain ⟨-, hg, hh, hi, hj⟩ := halted_runFrom cfg evs' _ w' rfl hT hmem hrun'
  exact ⟨hh, hg, hi, hj⟩

/-- Witness for C3 (amended), at the single-session run `start` under
`demoConfig`, stopping, then resolving the in-flight request: the stop
call leaves no pending timer, and the continuation delivers nothing,
keeps the timer pool empty, only shrinks the in-flight pool, and leaves
the timer-handle counter unchanged. -/
theorem c3_stop_cancels_single_session_witness :
    (⟨true, none, 0, 1, [(0, 0)], [], []⟩ : World Nat).timers = []
    ∧ ((⟨true, none, 0, 1, [], [], []⟩ : World Nat).log
        = (⟨true, none, 0, 1, [(0, 0)], [], []⟩ : World Nat).log
      ∧ (⟨true, none, 0, 1, [], [], []⟩ : World Nat).timers = []
      ∧ (⟨true, none, 0, 1, [], [], []⟩ : World Nat).inflight.Sublist
          (⟨true, none, 0, 1, [(0, 0)], [], []⟩ : World Nat).inflight
      ∧ (⟨true, none, 0, 1, [], [], []⟩ : World Nat).nextTimerId
        = (⟨true, none, 0, 1, [(0, 0)], [], []⟩ : World Nat).nextTimerId) := by
  have h := c3_stop_cancels_single_session Nat demoConfig [Ev.start]
    (⟨false, none, 0, 1, [(0, 0)], [], []⟩ : World Nat)
    (⟨true, none, 0, 1, [(0, 0)], [], []⟩ : World Nat) (by decide) rfl rfl
  exact ⟨h.1, h.2 [Ev.resolve 0 0] (⟨true, none, 0, 1, [], [], []⟩ : World Nat) (by decide) rfl⟩

end PollEvery
